import Mathlib

/-
Verification development for the phrase-lexicon builder in src/yapl/yapl.py.
The embedded core is the BigramCounter class (lossy counting over a stream of
ordered token pairs), the exact unigram Counter accumulation, and the PMI
scoring loop of insert_articles_to_lexicon. Python dicts are modelled as
insertion-ordered association lists; Python ints as Nat or Int; the float
delta as a rational number.
-/

set_option maxHeartbeats 1000000

namespace Yapl

variable {α β γ : Type}

/-- Association-list lookup, modelling Python dict access: the first binding
for a key wins (Python dicts have at most one binding per key). -/
def dictGet [DecidableEq α] : List (α × β) → α → Option β
  | [], _ => none
  | (a, b) :: l, k => if a = k then some b else dictGet l k

/-- Association-list update, modelling Python dict assignment: an existing
binding is replaced in place, a new key is appended at the end, matching the
insertion-order semantics of Python dicts. -/
def dictSet [DecidableEq α] : List (α × β) → α → β → List (α × β)
  | [], k, v => [(k, v)]
  | (a, b) :: l, k, v => if a = k then (a, v) :: l else (a, b) :: dictSet l k v

/-- Number of occurrences of an element in a list; this is the reference
notion of true frequency used by the spec. -/
def occCount [DecidableEq γ] (t : γ) : List γ → ℕ
  | [] => 0
  | y :: l => (if y = t then 1 else 0) + occCount t l

/-- Python int() applied to a rational value: truncation toward zero. -/
def pyInt (q : ℚ) : ℤ := if 0 ≤ q then ⌊q⌋ else ⌈q⌉

/-- State of the BigramCounter class (src/yapl/yapl.py lines 103 to 140).
bigrams maps a context token t1 to an inner table from t2 to a count;
bucket_ids mirrors that shape and stores each entry creation bucket. -/
structure BigramCounter (α : Type) where
  n : ℕ
  delta : ℚ
  bigrams : List (α × List (α × ℕ))
  bucket_ids : List (α × List (α × ℤ))
  current_bucket_id : ℤ
  stopwords : List α

namespace BigramCounter

/-- The constructor (lines 105 to 111): no validation of delta happens. -/
def init (δ : ℚ) (sw : List α) : BigramCounter α :=
  { n := 0, delta := δ, bigrams := [], bucket_ids := [],
    current_bucket_id := 1, stopwords := sw }

/-- The modulus int(1 / self.delta) recomputed at each boundary check
(line 126). -/
def width (c : BigramCounter α) : ℤ := pyInt (1 / c.delta)

/-- Lines 125 to 126. Python % and Int.emod agree on whether the result is
zero; the zero-modulus error case is modelled separately in addChecked. -/
def is_boundary_of_bucket (c : BigramCounter α) : Bool :=
  ((c.n : ℤ) % c.width) == 0

/-- Lookup of the count stored for the pair (t1, t2), if any. -/
def lookupBigram [DecidableEq α] (c : BigramCounter α) (t1 t2 : α) : Option ℕ :=
  (dictGet c.bigrams t1).bind fun sub => dictGet sub t2

/-- Lookup of the creation bucket stored for the pair (t1, t2), if any. -/
def lookupBucket [DecidableEq α] (c : BigramCounter α) (t1 t2 : α) : Option ℤ :=
  (dictGet c.bucket_ids t1).bind fun sub => dictGet sub t2

/-- The accessor self.bucket_ids[t1][t2] used by the weed-out condition
(line 136). In every state the counter actually reaches, the key is present
whenever the corresponding bigram entry exists, so the default 0 for a
missing key is never consulted by the theorems below. -/
def bidOf [DecidableEq α] (c : BigramCounter α) (t1 t2 : α) : ℤ :=
  (lookupBucket c t1 t2).getD 0

/-- The eviction test of line 136: count <= current_bucket_id - bucket_ids. -/
def weedCond [DecidableEq α] (c : BigramCounter α) (t1 t2 : α) (count : ℕ) : Bool :=
  decide ((count : ℤ) ≤ c.current_bucket_id - bidOf c t1 t2)

/-- Membership of (t1, t2) in the deletion queue built by lines 133 to 137:
the pair is queued when it is present in bigrams and its count meets the
eviction test. -/
def queueMem [DecidableEq α] (c : BigramCounter α) (t1 t2 : α) : Bool :=
  match lookupBigram c t1 t2 with
  | none => false
  | some cnt => weedCond c t1 t2 cnt

/-- Lines 132 to 140: scan every entry, queue those meeting the eviction
test, then delete the queued pairs from both inner tables. Outer keys are
never deleted. -/
def weed_out_bigrams [DecidableEq α] (c : BigramCounter α) : BigramCounter α :=
  { c with
    bigrams := c.bigrams.map fun p =>
      (p.1, p.2.filter fun q => ! weedCond c p.1 q.1 q.2),
    bucket_ids := c.bucket_ids.map fun p =>
      (p.1, p.2.filter fun q => ! queueMem c p.1 q.1) }

/-- Lines 128 to 130: increment current_bucket_id, then weed out using the
incremented value. -/
def move_next_bucket [DecidableEq α] (c : BigramCounter α) : BigramCounter α :=
  weed_out_bigrams { c with current_bucket_id := c.current_bucket_id + 1 }

/-- Lines 113 to 120 of add: increment n; when neither token is a stopword,
increment the count of an existing entry, or create a new entry with count 1
and creation bucket current_bucket_id - 1. Accessing self.bigrams[t1] on the
defaultdict materialises the outer key, which dictSet reproduces. -/
def add_record [DecidableEq α] (c : BigramCounter α) (t1 t2 : α) : BigramCounter α :=
  if t1 ∉ c.stopwords ∧ t2 ∉ c.stopwords then
    match dictGet ((dictGet c.bigrams t1).getD []) t2 with
    | some cnt =>
      { c with
        n := c.n + 1,
        bigrams := dictSet c.bigrams t1
          (dictSet ((dictGet c.bigrams t1).getD []) t2 (cnt + 1)) }
    | none =>
      { c with
        n := c.n + 1,
        bigrams := dictSet c.bigrams t1
          (dictSet ((dictGet c.bigrams t1).getD []) t2 1),
        bucket_ids := dictSet c.bucket_ids t1
          (dictSet ((dictGet c.bucket_ids t1).getD []) t2
            (c.current_bucket_id - 1)) }
  else { c with n := c.n + 1 }

/-- Lines 113 to 123: the whole add method for the non-raising case. -/
def add [DecidableEq α] (c : BigramCounter α) (t1 t2 : α) : BigramCounter α :=
  if (add_record c t1 t2).is_boundary_of_bucket then
    (add_record c t1 t2).move_next_bucket
  else add_record c t1 t2

/-- add with the Python error behaviour made explicit: when int(1 / delta)
is zero (delta zero raises at 1 / delta, delta above one raises at the
modulo), the call raises ZeroDivisionError, modelled as Except.error. -/
def addChecked [DecidableEq α] (c : BigramCounter α) (t1 t2 : α) :
    Except Unit (BigramCounter α) :=
  if c.width = 0 then Except.error () else Except.ok (add c t1 t2)

/-- The ingestion loop of line 154 to 155: feed a stream of ordered pairs. -/
def runPairs [DecidableEq α] (c : BigramCounter α) (ps : List (α × α)) :
    BigramCounter α :=
  ps.foldl (fun a p => add a p.1 p.2) c

/-- Every inner table of the bigrams map binds each key at most once. This
holds in every state the counter reaches and is the hypothesis under which
the weed-out characterisation is stated. -/
def InnerNodup (c : BigramCounter α) : Prop :=
  ∀ p ∈ c.bigrams, (p.2.map Prod.fst).Nodup

instance innerNodupDecidable [DecidableEq α] (c : BigramCounter α) :
    Decidable (InnerNodup c) :=
  inferInstanceAs (Decidable (∀ p ∈ c.bigrams, (p.2.map Prod.fst).Nodup))

/-- The boundary test with the value of int(1 / delta) supplied as an
integer W: used to evaluate concrete runs, since the counter never changes
delta and hence never changes the modulus. -/
def is_boundaryW (W : ℤ) (c : BigramCounter α) : Bool :=
  ((c.n : ℤ) % W) == 0

/-- add with the constant modulus W made explicit. -/
def addW [DecidableEq α] (W : ℤ) (c : BigramCounter α) (t1 t2 : α) :
    BigramCounter α :=
  if is_boundaryW W (add_record c t1 t2) then
    (add_record c t1 t2).move_next_bucket
  else add_record c t1 t2

/-- runPairs with the constant modulus W made explicit. -/
def runW [DecidableEq α] (W : ℤ) (c : BigramCounter α) (ps : List (α × α)) :
    BigramCounter α :=
  ps.foldl (fun a p => addW W a p.1 p.2) c

end BigramCounter

/-- Counter lookup: a collections.Counter yields 0 for a missing key. -/
def cntGet [DecidableEq α] (m : List (α × ℕ)) (t : α) : ℕ :=
  (dictGet m t).getD 0

/-- One observation of a token: the exact-count increment of Counter. -/
def cntInc [DecidableEq α] (m : List (α × ℕ)) (t : α) : List (α × ℕ) :=
  dictSet m t (cntGet m t + 1)

/-- Counter(tokens): exact counts of a token list. -/
def counterOfList [DecidableEq α] (ts : List α) : List (α × ℕ) :=
  ts.foldl cntInc []

/-- Counter addition, modelling unigrams += Counter(tokens) at line 153:
counts are added keywise. -/
def counterAdd [DecidableEq α] (m1 m2 : List (α × ℕ)) : List (α × ℕ) :=
  m2.foldl (fun acc p => dictSet acc p.1 (cntGet acc p.1 + p.2)) m1

/-- sum(m.values()). -/
def cntTotal (m : List (α × ℕ)) : ℕ := (m.map Prod.snd).sum

/-- The unigram table built by the article loop (lines 146 to 153): one
Counter per article, accumulated with +=. -/
def unigramsOf [DecidableEq α] (articles : List (List α)) : List (α × ℕ) :=
  articles.foldl (fun acc a => counterAdd acc (counterOfList a)) []

/-- sum(subtree.values()), the per-context total of line 161. -/
def cntSubTotal (sub : List (α × ℕ)) : ℕ := (sub.map Prod.snd).sum

/-- Sum of the values bound to a given key in an association list; for a
well-formed Counter this is the count of the key. -/
def sumVals [DecidableEq α] (t : α) : List (α × ℕ) → ℕ
  | [] => 0
  | (a, b) :: l => (if a = t then b else 0) + sumVals t l

/-- The pmi value computed at lines 163 to 166 for one entry:
log((count_x_given_y / count_all_given_y) / (unigrams[x] / count_all)). -/
noncomputable def pmiOf [DecidableEq α] (unigrams : List (α × ℕ))
    (count_all_given_y : ℕ) (x : α) (count_x_given_y : ℕ) : ℝ :=
  Real.log (((count_x_given_y : ℝ) / (count_all_given_y : ℝ)) /
    ((cntGet unigrams x : ℝ) / (cntTotal unigrams : ℝ)))

/-- The scoring loop of lines 157 to 168: for every context y and child x,
emit the phrase (y, x) exactly when pmi is at least the threshold. The
source hard-codes threshold = 1000; it is a parameter here, as in the spec.
The emitted phrase string y + space + x is represented by the pair (y, x). -/
noncomputable def phrasesOf [DecidableEq α] (unigrams : List (α × ℕ))
    (bigrams : List (α × List (α × ℕ))) (threshold : ℝ) : List (α × α) :=
  bigrams.flatMap fun ys =>
    (ys.2.filter fun xc =>
      decide (threshold ≤ pmiOf unigrams (cntSubTotal ys.2) xc.1 xc.2)).map
      fun xc => (ys.1, xc.1)

/-- A small concrete counter state used to instantiate the general theorems:
one entry (a, b) with count 2 created in bucket 0. -/
def sampleState : BigramCounter String :=
  { n := 1, delta := 1 / 2, bigrams := [("a", [("b", 2)])],
    bucket_ids := [("a", [("b", 0)])], current_bucket_id := 1,
    stopwords := [] }

namespace BigramCounter

theorem add_record_fields [DecidableEq α] (c : BigramCounter α) (t1 t2 : α) :
    (add_record c t1 t2).delta = c.delta ∧
    (add_record c t1 t2).stopwords = c.stopwords ∧
    (add_record c t1 t2).n = c.n + 1 ∧
    (add_record c t1 t2).current_bucket_id = c.current_bucket_id := by
  unfold add_record
  split
  · split <;> exact ⟨rfl, rfl, rfl, rfl⟩
  · exact ⟨rfl, rfl, rfl, rfl⟩

theorem weed_fields [DecidableEq α] (c : BigramCounter α) :
    (weed_out_bigrams c).delta = c.delta ∧
    (weed_out_bigrams c).stopwords = c.stopwords ∧
    (weed_out_bigrams c).n = c.n ∧
    (weed_out_bigrams c).current_bucket_id = c.current_bucket_id :=
  ⟨rfl, rfl, rfl, rfl⟩

theorem add_delta [DecidableEq α] (c : BigramCounter α) (t1 t2 : α) :
    (add c t1 t2).delta = c.delta := by
  unfold add move_next_bucket
  split
  · exact (weed_fields _).1.trans (add_record_fields c t1 t2).1
  · exact (add_record_fields c t1 t2).1

theorem add_stopwords [DecidableEq α] (c : BigramCounter α) (t1 t2 : α) :
    (add c t1 t2).stopwords = c.stopwords := by
  unfold add move_next_bucket
  split
  · exact (weed_fields _).2.1.trans (add_record_fields c t1 t2).2.1
  · exact (add_record_fields c t1 t2).2.1

theorem add_n [DecidableEq α] (c : BigramCounter α) (t1 t2 : α) :
    (add c t1 t2).n = c.n + 1 := by
  unfold add move_next_bucket
  split
  · exact (weed_fields _).2.2.1.trans (add_record_fields c t1 t2).2.2.1
  · exact (add_record_fields c t1 t2).2.2.1

theorem add_record_width [DecidableEq α] (c : BigramCounter α) (t1 t2 : α) :
    (add_record c t1 t2).width = c.width := by
  unfold width
  rw [(add_record_fields c t1 t2).1]

theorem add_width [DecidableEq α] (c : BigramCounter α) (t1 t2 : α) :
    (add c t1 t2).width = c.width := by
  unfold width
  rw [add_delta]

theorem add_eq_addW [DecidableEq α] (W : ℤ) (c : BigramCounter α) (t1 t2 : α)
    (h : c.width = W) : add c t1 t2 = addW W c t1 t2 := by
  unfold add addW is_boundary_of_bucket is_boundaryW
  rw [add_record_width, h]

theorem runPairs_eq_runW [DecidableEq α] (W : ℤ) (ps : List (α × α))
    (c : BigramCounter α) (h : c.width = W) : runPairs c ps = runW W c ps := by
  induction ps generalizing c with
  | nil => rfl
  | cons p ps ih =>
    show runPairs (add c p.1 p.2) ps = runW W (addW W c p.1 p.2) ps
    rw [← add_eq_addW W c p.1 p.2 h]
    exact ih _ ((add_width c p.1 p.2).trans h)

theorem width_init (δ : ℚ) (sw : List α) :
    (init δ sw : BigramCounter α).width = pyInt (1 / δ) := rfl

end BigramCounter

theorem pyInt_half : pyInt (1 / ((1 : ℚ) / 2)) = 2 := by
  have h : (1 : ℚ) / ((1 : ℚ) / 2) = 2 := by norm_num
  rw [pyInt, h, if_pos (by norm_num)]
  norm_num

theorem pyInt_two_fifths : pyInt (1 / ((2 : ℚ) / 5)) = 2 := by
  have h : (1 : ℚ) / ((2 : ℚ) / 5) = 5 / 2 := by norm_num
  rw [pyInt, h, if_pos (by norm_num)]
  norm_num

theorem pyInt_inv_two : pyInt (1 / (2 : ℚ)) = 0 := by
  rw [pyInt, if_pos (by norm_num)]
  norm_num

section DictLemmas

theorem dictGet_cons [DecidableEq α] (a : α) (b : β) (l : List (α × β))
    (k : α) :
    dictGet ((a, b) :: l) k = if a = k then some b else dictGet l k := rfl

theorem dictGet_set_self [DecidableEq α] (l : List (α × β)) (k : α) (v : β) :
    dictGet (dictSet l k v) k = some v := by
  induction l with
  | nil => simp [dictGet, dictSet]
  | cons p l ih =>
    obtain ⟨a, b⟩ := p
    by_cases h : a = k
    · simp [dictGet, dictSet, h]
    · simp [dictGet, dictSet, h, ih]

theorem dictGet_set_ne [DecidableEq α] (l : List (α × β)) (k k' : α) (v : β)
    (h : k' ≠ k) : dictGet (dictSet l k v) k' = dictGet l k' := by
  induction l with
  | nil =>
    have hk : ¬ k = k' := fun hk => h hk.symm
    simp [dictGet, dictSet, hk]
  | cons p l ih =>
    obtain ⟨a, b⟩ := p
    have hkk : ¬ k = k' := fun hk => h hk.symm
    by_cases ha : a = k
    · simp [dictGet, dictSet, ha, hkk]
    · by_cases ha' : a = k'
      · simp [dictGet, dictSet, ha, ha', h]
      · simp [dictGet, dictSet, ha, ha', ih]

theorem dictGet_map [DecidableEq α] (l : List (α × β)) (g : α → β → γ) (k : α) :
    dictGet (l.map fun p => (p.1, g p.1 p.2)) k = (dictGet l k).map (g k) := by
  induction l with
  | nil => simp [dictGet]
  | cons p l ih =>
    obtain ⟨a, b⟩ := p
    by_cases h : a = k
    · subst h
      simp [dictGet]
    · simp [dictGet, h, ih]

theorem dictGet_eq_none_of_not_mem [DecidableEq α] (l : List (α × β)) (k : α)
    (h : k ∉ l.map Prod.fst) : dictGet l k = none := by
  induction l with
  | nil => rfl
  | cons p l ih =>
    obtain ⟨a, b⟩ := p
    simp only [List.map_cons, List.mem_cons] at h
    push_neg at h
    have hak : ¬ a = k := fun hk => h.1 hk.symm
    simp [dictGet, hak, ih h.2]

theorem dictGet_some_mem [DecidableEq α] {l : List (α × β)} {k : α} {v : β}
    (h : dictGet l k = some v) : (k, v) ∈ l := by
  induction l with
  | nil => simp [dictGet] at h
  | cons p l ih =>
    obtain ⟨a, b⟩ := p
    by_cases ha : a = k
    · subst ha
      simp [dictGet] at h
      subst h
      exact List.mem_cons_self _ _
    · simp only [dictGet, if_neg ha] at h
      exact List.mem_cons_of_mem _ (ih h)

theorem dictGet_filter_key [DecidableEq α] (l : List (α × β)) (q : α → Bool)
    (k : α) :
    dictGet (l.filter fun p => q p.1) k =
      if q k then dictGet l k else none := by
  induction l with
  | nil => simp [dictGet]
  | cons p l ih =>
    obtain ⟨a, b⟩ := p
    rcases hq : q a with _ | _
    · by_cases ha : a = k
      · subst ha
        rw [List.filter_cons_of_neg (by simp [hq]), ih, hq]
        simp [dictGet, hq]
      · rw [List.filter_cons_of_neg (by simp [hq]), ih]
        by_cases hk : q k
        · simp [hk, dictGet, ha]
        · simp [hk]
    · by_cases ha : a = k
      · subst ha
        rw [List.filter_cons_of_pos (by simp [hq])]
        simp [dictGet, hq]
      · rw [List.filter_cons_of_pos (by simp [hq])]
        simp only [dictGet, if_neg ha]
        exact ih

theorem filter_keys_subset (l : List (α × β)) (f : α × β → Bool) (k : α)
    (h : k ∈ (l.filter f).map Prod.fst) : k ∈ l.map Prod.fst := by
  obtain ⟨p, hp, rfl⟩ := List.mem_map.mp h
  exact List.mem_map.mpr ⟨p, (List.mem_filter.mp hp).1, rfl⟩

theorem dictGet_filter_nodup [DecidableEq α] (l : List (α × β))
    (f : α × β → Bool) (k : α) (hnd : (l.map Prod.fst).Nodup) :
    dictGet (l.filter f) k =
      (dictGet l k).bind fun v => if f (k, v) then some v else none := by
  induction l with
  | nil => simp [dictGet]
  | cons p l ih =>
    obtain ⟨a, b⟩ := p
    simp only [List.map_cons, List.nodup_cons] at hnd
    by_cases ha : a = k
    · subst ha
      rcases hq : f (a, b) with _ | _
      · rw [List.filter_cons_of_neg (by simp [hq])]
        rw [dictGet_eq_none_of_not_mem _ _
          (fun hmem => hnd.1 (filter_keys_subset _ _ _ hmem))]
        simp [dictGet, hq]
      · rw [List.filter_cons_of_pos (by simp [hq])]
        simp [dictGet, hq]
    · rcases hq : f (a, b) with _ | _
      · rw [List.filter_cons_of_neg (by simp [hq]), ih hnd.2]
        simp only [dictGet, if_neg ha]
      · rw [List.filter_cons_of_pos (by simp [hq])]
        simp only [dictGet, if_neg ha]
        exact ih hnd.2

theorem dictSet_keys [DecidableEq α] (l : List (α × β)) (k : α) (v : β) :
    (dictSet l k v).map Prod.fst =
      if k ∈ l.map Prod.fst then l.map Prod.fst else l.map Prod.fst ++ [k] := by
  induction l with
  | nil => simp [dictSet]
  | cons p l ih =>
    obtain ⟨a, b⟩ := p
    by_cases ha : a = k
    · subst ha
      simp [dictSet]
    · have hka : ¬ k = a := fun hk => ha hk.symm
      simp only [dictSet, if_neg ha, List.map_cons, ih, List.mem_cons]
      by_cases hm : k ∈ l.map Prod.fst
      · simp [hm, hka]
      · simp [hm, hka]

theorem dictSet_keys_nodup [DecidableEq α] (l : List (α × β)) (k : α) (v : β)
    (h : (l.map Prod.fst).Nodup) : ((dictSet l k v).map Prod.fst).Nodup := by
  rw [dictSet_keys]
  by_cases hm : k ∈ l.map Prod.fst
  · simpa [hm] using h
  · rw [if_neg hm]
    refine List.Nodup.append h (List.nodup_singleton k) ?_
    intro a ha hak
    rw [List.mem_singleton] at hak
    subst hak
    exact hm ha

theorem mem_dictSet [DecidableEq α] {l : List (α × β)} {k : α} {v : β}
    {p : α × β} (h : p ∈ dictSet l k v) : p ∈ l ∨ p = (k, v) := by
  induction l with
  | nil =>
    simp only [dictSet, List.mem_singleton] at h
    exact Or.inr h
  | cons q l ih =>
    obtain ⟨a, b⟩ := q
    by_cases ha : a = k
    · subst ha
      simp only [dictSet, eq_self_iff_true, if_true, List.mem_cons] at h
      rcases h with h | h
      · exact Or.inr h
      · exact Or.inl (List.mem_cons_of_mem _ h)
    · simp only [dictSet, if_neg ha, List.mem_cons] at h
      rcases h with h | h
      · exact Or.inl (List.mem_cons.mpr (Or.inl h))
      · rcases ih h with h' | h'
        · exact Or.inl (List.mem_cons_of_mem _ h')
        · exact Or.inr h'

theorem dictGet_none_not_mem [DecidableEq α] {l : List (α × β)} {k : α}
    (h : dictGet l k = none) : k ∉ l.map Prod.fst := by
  induction l with
  | nil => simp
  | cons p l ih =>
    obtain ⟨a, b⟩ := p
    by_cases ha : a = k
    · rw [dictGet, if_pos ha] at h
      cases h
    · rw [dictGet, if_neg ha] at h
      simp only [List.map_cons, List.mem_cons]
      rintro (hk | hk)
      · exact ha hk.symm
      · exact ih h hk

end DictLemmas

namespace BigramCounter

theorem weed_bigrams_get [DecidableEq α] (c : BigramCounter α) (t1 : α) :
    dictGet (weed_out_bigrams c).bigrams t1 =
      (dictGet c.bigrams t1).map
        fun sub => sub.filter fun q => ! weedCond c t1 q.1 q.2 := by
  simp only [weed_out_bigrams]
  exact dictGet_map c.bigrams
    (fun a sub => sub.filter fun q => ! weedCond c a q.1 q.2) t1

theorem weed_bucket_get [DecidableEq α] (c : BigramCounter α) (t1 : α) :
    dictGet (weed_out_bigrams c).bucket_ids t1 =
      (dictGet c.bucket_ids t1).map
        fun sub => sub.filter fun q => ! queueMem c t1 q.1 := by
  simp only [weed_out_bigrams]
  exact dictGet_map c.bucket_ids
    (fun a (sub : List (α × ℤ)) => sub.filter fun q => ! queueMem c a q.1) t1

/-- Exact characterisation of weed-out on the bigram table: an entry survives
with count cnt when it was present with count cnt and the eviction test of
line 136 fails for it. -/
theorem lookupBigram_weed [DecidableEq α] (c : BigramCounter α)
    (hnd : c.InnerNodup) (t1 t2 : α) (cnt : ℕ) :
    (weed_out_bigrams c).lookupBigram t1 t2 = some cnt ↔
      c.lookupBigram t1 t2 = some cnt ∧
        ¬ ((cnt : ℤ) ≤ c.current_bucket_id - bidOf c t1 t2) := by
  unfold lookupBigram
  rw [weed_bigrams_get]
  cases hg : dictGet c.bigrams t1 with
  | none => simp
  | some sub =>
    simp only [Option.map_some', Option.some_bind]
    rw [dictGet_filter_nodup sub _ t2 (hnd (t1, sub) (dictGet_some_mem hg))]
    cases hs : dictGet sub t2 with
    | none => simp
    | some v =>
      simp only [Option.some_bind]
      dsimp only
      by_cases hP : (v : ℤ) ≤ c.current_bucket_id - bidOf c t1 t2
      · have hw : weedCond c t1 t2 v = true := decide_eq_true hP
        rw [hw]
        simp only [Bool.not_true]
        rw [if_neg (by simp)]
        constructor
        · intro h
          cases h
        · rintro ⟨hv, hc⟩
          cases Option.some.inj hv
          exact absurd hP hc
      · have hw : weedCond c t1 t2 v = false := decide_eq_false hP
        rw [hw]
        simp only [Bool.not_false]
        rw [if_pos (by simp)]
        constructor
        · intro h
          refine ⟨h, ?_⟩
          rw [← Option.some.inj h]
          exact hP
        · rintro ⟨hv, _⟩
          exact hv

/-- Weed-out never resurrects an absent entry. -/
theorem lookupBigram_weed_none [DecidableEq α] (c : BigramCounter α)
    (t1 t2 : α) (h : c.lookupBigram t1 t2 = none) :
    (weed_out_bigrams c).lookupBigram t1 t2 = none := by
  unfold lookupBigram at h ⊢
  rw [weed_bigrams_get]
  cases hg : dictGet c.bigrams t1 with
  | none => simp
  | some sub =>
    rw [hg] at h
    simp only [Option.some_bind] at h
    simp only [Option.map_some', Option.some_bind]
    exact dictGet_eq_none_of_not_mem _ _
      (fun hm => dictGet_none_not_mem h (filter_keys_subset _ _ _ hm))

theorem queueMem_eq_false [DecidableEq α] {c : BigramCounter α} {t1 t2 : α}
    {cnt : ℕ} (hb : c.lookupBigram t1 t2 = some cnt)
    (hw : ¬ ((cnt : ℤ) ≤ c.current_bucket_id - bidOf c t1 t2)) :
    queueMem c t1 t2 = false := by
  unfold queueMem
  rw [hb]
  exact decide_eq_false hw

/-- A surviving entry keeps its stored creation bucket. -/
theorem lookupBucket_weed [DecidableEq α] (c : BigramCounter α) (t1 t2 : α)
    (hq : queueMem c t1 t2 = false) :
    (weed_out_bigrams c).lookupBucket t1 t2 = c.lookupBucket t1 t2 := by
  unfold lookupBucket
  rw [weed_bucket_get]
  cases hg : dictGet c.bucket_ids t1 with
  | none => simp
  | some sub =>
    simp only [Option.map_some', Option.some_bind]
    rw [dictGet_filter_key sub (fun a => ! queueMem c t1 a) t2]
    rw [hq]
    simp

/-- Equation for add_record when one of the tokens is a stopword: only n
advances. -/
theorem add_record_skip [DecidableEq α] (c : BigramCounter α) (t1 t2 : α)
    (h : ¬ (t1 ∉ c.stopwords ∧ t2 ∉ c.stopwords)) :
    add_record c t1 t2 = { c with n := c.n + 1 } := by
  unfold add_record
  rw [if_neg h]

/-- Equation for add_record when the entry exists: its count is bumped. -/
theorem add_record_found [DecidableEq α] (c : BigramCounter α) (t1 t2 : α)
    (h1 : t1 ∉ c.stopwords) (h2 : t2 ∉ c.stopwords) (cnt : ℕ)
    (hs : dictGet ((dictGet c.bigrams t1).getD []) t2 = some cnt) :
    add_record c t1 t2 =
      { c with
        n := c.n + 1,
        bigrams := dictSet c.bigrams t1
          (dictSet ((dictGet c.bigrams t1).getD []) t2 (cnt + 1)) } := by
  unfold add_record
  rw [if_pos ⟨h1, h2⟩, hs]

/-- Equation for add_record when the entry is new: count 1 and creation
bucket current_bucket_id - 1. -/
theorem add_record_new [DecidableEq α] (c : BigramCounter α) (t1 t2 : α)
    (h1 : t1 ∉ c.stopwords) (h2 : t2 ∉ c.stopwords)
    (hs : dictGet ((dictGet c.bigrams t1).getD []) t2 = none) :
    add_record c t1 t2 =
      { c with
        n := c.n + 1,
        bigrams := dictSet c.bigrams t1
          (dictSet ((dictGet c.bigrams t1).getD []) t2 1),
        bucket_ids := dictSet c.bucket_ids t1
          (dictSet ((dictGet c.bucket_ids t1).getD []) t2
            (c.current_bucket_id - 1)) } := by
  unfold add_record
  rw [if_pos ⟨h1, h2⟩, hs]

/-- A pair absent from the two-level table is also absent from the
flattened inner view used by the add method. -/
theorem lookup_none_getD [DecidableEq α] {c : BigramCounter α} {t1 t2 : α}
    (h : c.lookupBigram t1 t2 = none) :
    dictGet ((dictGet c.bigrams t1).getD []) t2 = none := by
  unfold lookupBigram at h
  cases hg : dictGet c.bigrams t1 with
  | none => simp [dictGet]
  | some sub =>
    rw [hg] at h
    simpa using h

theorem lookup_some_getD [DecidableEq α] {c : BigramCounter α} {t1 t2 : α}
    {cnt : ℕ} (h : c.lookupBigram t1 t2 = some cnt) :
    dictGet ((dictGet c.bigrams t1).getD []) t2 = some cnt := by
  unfold lookupBigram at h
  cases hg : dictGet c.bigrams t1 with
  | none => rw [hg] at h; simp at h
  | some sub =>
    rw [hg] at h
    simpa using h

/-- add_record preserves the inner no-duplicate-keys invariant. -/
theorem add_record_innerNodup [DecidableEq α] (c : BigramCounter α)
    (t1 t2 : α) (hnd : c.InnerNodup) : (add_record c t1 t2).InnerNodup := by
  have hsub : (((dictGet c.bigrams t1).getD []).map Prod.fst).Nodup := by
    cases hg : dictGet c.bigrams t1 with
    | none => simp
    | some sub =>
      simpa using hnd (t1, sub) (dictGet_some_mem hg)
  intro p hp
  unfold add_record at hp
  split at hp
  · split at hp
    all_goals
      simp only at hp
      rcases mem_dictSet hp with h | h
      · exact hnd p h
      · subst h
        exact dictSet_keys_nodup _ _ _ hsub
  · exact hnd p hp

/-- Processing any pair leaves a pair containing a stopword absent from the
bigram table (count-update stage). -/
theorem add_record_stopword_none [DecidableEq α] (c : BigramCounter α)
    (t1 t2 u1 u2 : α) (ht : t1 ∈ c.stopwords ∨ t2 ∈ c.stopwords)
    (h0 : c.lookupBigram t1 t2 = none) :
    (add_record c u1 u2).lookupBigram t1 t2 = none := by
  by_cases hc : u1 ∉ c.stopwords ∧ u2 ∉ c.stopwords
  · have hu2t2 : ∀ hu1 : u1 = t1, ¬ u2 = t2 := by
      intro hu1 hu2
      rcases ht with ht | ht
      · exact hc.1 (hu1 ▸ ht)
      · exact hc.2 (hu2 ▸ ht)
    cases hs : dictGet ((dictGet c.bigrams u1).getD []) u2 with
    | some cnt =>
      rw [add_record_found c u1 u2 hc.1 hc.2 cnt hs]
      unfold lookupBigram
      by_cases hu1 : u1 = t1
      · subst hu1
        rw [show dictGet
            (dictSet c.bigrams u1
              (dictSet ((dictGet c.bigrams u1).getD []) u2 (cnt + 1))) u1 =
            some (dictSet ((dictGet c.bigrams u1).getD []) u2 (cnt + 1)) from
          dictGet_set_self _ _ _]
        simp only [Option.some_bind]
        rw [dictGet_set_ne _ _ _ _ (fun hh => hu2t2 rfl hh.symm)]
        exact lookup_none_getD h0
      · rw [dictGet_set_ne _ _ _ _ (fun h => hu1 h.symm)]
        exact h0
    | none =>
      rw [add_record_new c u1 u2 hc.1 hc.2 hs]
      unfold lookupBigram
      by_cases hu1 : u1 = t1
      · subst hu1
        rw [show dictGet
            (dictSet c.bigrams u1
              (dictSet ((dictGet c.bigrams u1).getD []) u2 1)) u1 =
            some (dictSet ((dictGet c.bigrams u1).getD []) u2 1) from
          dictGet_set_self _ _ _]
        simp only [Option.some_bind]
        rw [dictGet_set_ne _ _ _ _ (fun hh => hu2t2 rfl hh.symm)]
        exact lookup_none_getD h0
      · rw [dictGet_set_ne _ _ _ _ (fun h => hu1 h.symm)]
        exact h0
  · rw [add_record_skip c u1 u2 hc]
    exact h0

/-- Full-add version of the stopword absence preservation. -/
theorem add_stopword_none [DecidableEq α] (c : BigramCounter α)
    (t1 t2 u1 u2 : α) (ht : t1 ∈ c.stopwords ∨ t2 ∈ c.stopwords)
    (h0 : c.lookupBigram t1 t2 = none) :
    (add c u1 u2).lookupBigram t1 t2 = none := by
  have hrec : (add_record c u1 u2).lookupBigram t1 t2 = none :=
    add_record_stopword_none c t1 t2 u1 u2 ht h0
  unfold add
  split
  · exact lookupBigram_weed_none _ _ _ hrec
  · exact hrec

/-- Over a whole run from an initial state whose stopword list contains one
of the two tokens, the pair never gets an entry. -/
theorem runPairs_stopword_none [DecidableEq α] (sw : List α) (t1 t2 : α)
    (ht : t1 ∈ sw ∨ t2 ∈ sw) (ps : List (α × α)) (c : BigramCounter α)
    (hsw : c.stopwords = sw) (h0 : c.lookupBigram t1 t2 = none) :
    (runPairs c ps).lookupBigram t1 t2 = none := by
  induction ps generalizing c with
  | nil => exact h0
  | cons p ps ih =>
    show (runPairs (add c p.1 p.2) ps).lookupBigram t1 t2 = none
    exact ih (add c p.1 p.2) ((add_stopwords c p.1 p.2).trans hsw)
      (add_stopword_none c t1 t2 p.1 p.2 (hsw ▸ ht) h0)

/-- The current bucket advances exactly at multiples of the modulus. -/
theorem add_current [DecidableEq α] (c : BigramCounter α) (t1 t2 : α)
    (W : ℤ) (hW : c.width = W) :
    (add c t1 t2).current_bucket_id =
      if W ∣ ((c.n : ℤ) + 1) then c.current_bucket_id + 1
      else c.current_bucket_id := by
  have hb : (add_record c t1 t2).is_boundary_of_bucket =
      decide (W ∣ ((c.n : ℤ) + 1)) := by
    unfold is_boundary_of_bucket
    rw [add_record_width, hW, (add_record_fields c t1 t2).2.2.1]
    by_cases hd : W ∣ ((c.n : ℤ) + 1)
    · rw [decide_eq_true hd]
      have : ((c.n + 1 : ℕ) : ℤ) % W = 0 := by
        rw [EuclideanDomain.mod_eq_zero]
        exact_mod_cast hd
      simp only [this, beq_self_eq_true]
    · rw [decide_eq_false hd]
      have : ¬ ((c.n + 1 : ℕ) : ℤ) % W = 0 := by
        rw [EuclideanDomain.mod_eq_zero]
        intro h
        exact hd (by exact_mod_cast h)
      simpa using this
  unfold add
  by_cases hd : W ∣ ((c.n : ℤ) + 1)
  · rw [if_pos (by rw [hb]; exact decide_eq_true hd), if_pos hd]
    show (weed_out_bigrams _).current_bucket_id = _
    rw [(weed_fields _).2.2.2]
    exact congrArg (· + 1) (add_record_fields c t1 t2).2.2.2
  · rw [if_neg (by rw [hb, decide_eq_false hd]; simp), if_neg hd]
    exact (add_record_fields c t1 t2).2.2.2

theorem runPairs_n [DecidableEq α] (ps : List (α × α)) (c : BigramCounter α) :
    (runPairs c ps).n = c.n + ps.length := by
  induction ps generalizing c with
  | nil => rfl
  | cons p ps ih =>
    show (runPairs (add c p.1 p.2) ps).n = _
    rw [ih, add_n]
    simp only [List.length_cons]
    omega

/-- Invariant form of the bucket counter: along any run the current bucket
is one more than the number of complete windows of the processed count. -/
theorem runPairs_current [DecidableEq α] (w : ℕ)
    (ps : List (α × α)) (c : BigramCounter α) (hW : c.width = (w : ℤ))
    (hc : c.current_bucket_id = 1 + ((c.n / w : ℕ) : ℤ)) :
    (runPairs c ps).current_bucket_id = 1 + (((c.n + ps.length) / w : ℕ) : ℤ) := by
  induction ps generalizing c with
  | nil => simpa using hc
  | cons p ps ih =>
    show (runPairs (add c p.1 p.2) ps).current_bucket_id = _
    have harg : (add c p.1 p.2).n + ps.length = c.n + (ps.length + 1) := by
      rw [add_n]; omega
    have hinv : (add c p.1 p.2).current_bucket_id =
        1 + (((add c p.1 p.2).n / w : ℕ) : ℤ) := by
      rw [add_current c p.1 p.2 (w : ℤ) hW, add_n]
      by_cases hd : (w : ℤ) ∣ ((c.n : ℤ) + 1)
      · have hdn : w ∣ (c.n + 1) := by exact_mod_cast hd
        rw [if_pos hd, hc, Nat.succ_div, if_pos hdn]
        push_cast
        ring
      · have hdn : ¬ w ∣ (c.n + 1) := fun h => hd (by exact_mod_cast h)
        rw [if_neg hd, hc, Nat.succ_div, if_neg hdn]
        push_cast
        ring
    rw [ih (add c p.1 p.2) ((add_width c p.1 p.2).trans hW) hinv, harg]
    simp [List.length_cons]

end BigramCounter

section CounterLemmas

theorem cntGet_dictSet_add [DecidableEq α] (m : List (α × ℕ)) (k : α) (v : ℕ)
    (t : α) :
    cntGet (dictSet m k (cntGet m k + v)) t =
      cntGet m t + if k = t then v else 0 := by
  by_cases hk : k = t
  · subst hk
    unfold cntGet
    rw [dictGet_set_self]
    simp
  · unfold cntGet
    rw [dictGet_set_ne _ _ _ _ (fun h => hk h.symm)]
    simp [hk]

theorem cntGet_cons_self [DecidableEq α] (a : α) (b : ℕ)
    (m : List (α × ℕ)) : cntGet ((a, b) :: m) a = b := by
  unfold cntGet
  rw [dictGet_cons, if_pos rfl]
  rfl

theorem cntGet_cons_ne [DecidableEq α] (a : α) (b : ℕ) (m : List (α × ℕ))
    (k : α) (ha : ¬ a = k) : cntGet ((a, b) :: m) k = cntGet m k := by
  unfold cntGet
  rw [dictGet_cons, if_neg ha]

theorem sumVals_dictSet_add [DecidableEq α] (m : List (α × ℕ)) (k : α) (v : ℕ)
    (t : α) :
    sumVals t (dictSet m k (cntGet m k + v)) =
      sumVals t m + if k = t then v else 0 := by
  induction m with
  | nil =>
    show sumVals t [(k, cntGet [] k + v)] = _
    have h0 : cntGet ([] : List (α × ℕ)) k = 0 := rfl
    rw [h0]
    simp only [sumVals]
    by_cases hk : k = t
    · simp [hk]
    · simp [hk]
  | cons p m ih =>
    obtain ⟨a, b⟩ := p
    by_cases ha : a = k
    · subst ha
      rw [cntGet_cons_self]
      simp only [dictSet, eq_self_iff_true, if_true, sumVals]
      by_cases hat : a = t
      · simp [hat]
        omega
      · simp [hat]
    · rw [cntGet_cons_ne a b m k ha]
      simp only [dictSet, if_neg ha, sumVals]
      rw [ih]
      omega

theorem cntTotal_dictSet_add [DecidableEq α] (m : List (α × ℕ)) (k : α)
    (v : ℕ) :
    cntTotal (dictSet m k (cntGet m k + v)) = cntTotal m + v := by
  induction m with
  | nil =>
    unfold cntTotal cntGet dictGet dictSet
    simp
  | cons p m ih =>
    obtain ⟨a, b⟩ := p
    by_cases ha : a = k
    · subst ha
      rw [cntGet_cons_self]
      simp only [dictSet, eq_self_iff_true, if_true]
      unfold cntTotal
      simp only [List.map_cons, List.sum_cons]
      omega
    · rw [cntGet_cons_ne a b m k ha]
      simp only [dictSet, if_neg ha]
      unfold cntTotal at ih ⊢
      simp only [List.map_cons, List.sum_cons]
      rw [ih]
      omega

theorem counterAdd_get [DecidableEq α] (m2 m1 : List (α × ℕ)) (t : α) :
    cntGet (counterAdd m1 m2) t = cntGet m1 t + sumVals t m2 := by
  induction m2 generalizing m1 with
  | nil => simp [counterAdd, sumVals]
  | cons p m2 ih =>
    obtain ⟨a, b⟩ := p
    show cntGet (counterAdd (dictSet m1 a (cntGet m1 a + b)) m2) t = _
    rw [ih, cntGet_dictSet_add]
    simp only [sumVals]
    by_cases hat : a = t
    · simp [hat]
      omega
    · simp [hat]

theorem counterAdd_total [DecidableEq α] (m2 m1 : List (α × ℕ)) :
    cntTotal (counterAdd m1 m2) = cntTotal m1 + cntTotal m2 := by
  induction m2 generalizing m1 with
  | nil => simp [counterAdd, cntTotal]
  | cons p m2 ih =>
    obtain ⟨a, b⟩ := p
    show cntTotal (counterAdd (dictSet m1 a (cntGet m1 a + b)) m2) = _
    rw [ih, cntTotal_dictSet_add]
    unfold cntTotal
    simp only [List.map_cons, List.sum_cons]
    omega

theorem counterOfList_get_aux [DecidableEq α] (ts : List α)
    (m : List (α × ℕ)) (t : α) :
    cntGet (ts.foldl cntInc m) t = cntGet m t + occCount t ts := by
  induction ts generalizing m with
  | nil => simp [occCount]
  | cons s ts ih =>
    show cntGet (ts.foldl cntInc (cntInc m s)) t = _
    rw [ih]
    unfold cntInc
    rw [cntGet_dictSet_add]
    simp only [occCount]
    by_cases hst : s = t
    · simp [hst]
      omega
    · simp [hst]

theorem counterOfList_sumVals_aux [DecidableEq α] (ts : List α)
    (m : List (α × ℕ)) (t : α) :
    sumVals t (ts.foldl cntInc m) = sumVals t m + occCount t ts := by
  induction ts generalizing m with
  | nil => simp [occCount]
  | cons s ts ih =>
    show sumVals t (ts.foldl cntInc (cntInc m s)) = _
    rw [ih]
    unfold cntInc
    rw [sumVals_dictSet_add]
    simp only [occCount]
    by_cases hst : s = t
    · simp [hst]
      omega
    · simp [hst]

theorem counterOfList_total_aux [DecidableEq α] (ts : List α)
    (m : List (α × ℕ)) :
    cntTotal (ts.foldl cntInc m) = cntTotal m + ts.length := by
  induction ts generalizing m with
  | nil => simp
  | cons s ts ih =>
    show cntTotal (ts.foldl cntInc (cntInc m s)) = _
    rw [ih]
    unfold cntInc
    rw [cntTotal_dictSet_add]
    simp only [List.length_cons]
    omega

theorem occCount_append [DecidableEq α] (t : α) (l1 l2 : List α) :
    occCount t (l1 ++ l2) = occCount t l1 + occCount t l2 := by
  induction l1 with
  | nil => simp [occCount]
  | cons s l1 ih =>
    rw [List.cons_append]
    simp only [occCount]
    rw [ih]
    omega

theorem unigramsOf_get_aux [DecidableEq α] (articles : List (List α))
    (m : List (α × ℕ)) (t : α) :
    cntGet (articles.foldl (fun acc a => counterAdd acc (counterOfList a)) m) t
      = cntGet m t + occCount t articles.flatten := by
  induction articles generalizing m with
  | nil => simp [occCount]
  | cons a articles ih =>
    show cntGet (articles.foldl _ (counterAdd m (counterOfList a))) t = _
    rw [ih, counterAdd_get]
    unfold counterOfList
    rw [counterOfList_sumVals_aux]
    simp only [sumVals, List.flatten_cons, occCount_append]
    omega

theorem unigramsOf_total_aux [DecidableEq α] (articles : List (List α))
    (m : List (α × ℕ)) :
    cntTotal (articles.foldl (fun acc a => counterAdd acc (counterOfList a)) m)
      = cntTotal m + articles.flatten.length := by
  induction articles generalizing m with
  | nil => simp
  | cons a articles ih =>
    show cntTotal (articles.foldl _ (counterAdd m (counterOfList a))) = _
    rw [ih, counterAdd_total]
    unfold counterOfList
    rw [counterOfList_total_aux]
    have h0 : cntTotal ([] : List (α × ℕ)) = 0 := rfl
    rw [h0]
    simp only [List.flatten_cons, List.length_append]
    omega

end CounterLemmas

section ScorerLemmas

theorem two_fifths_lt_log : (2 : ℝ) / 5 < Real.log (3 / 2) := by
  rw [Real.lt_log_iff_exp_lt (by norm_num : (0 : ℝ) < 3 / 2)]
  have h5 : Real.exp ((2 : ℝ) / 5) ^ (5 : ℕ) = Real.exp 2 := by
    rw [← Real.exp_nat_mul]
    norm_num
  have hbound : Real.exp 2 < ((3 : ℝ) / 2) ^ (5 : ℕ) := by
    have h2 : Real.exp 2 = Real.exp 1 * Real.exp 1 := by
      rw [← Real.exp_add]
      norm_num
    have h1 := Real.exp_one_lt_d9
    have hp := Real.exp_pos 1
    rw [h2]
    nlinarith
  exact lt_of_pow_lt_pow_left₀ 5 (by norm_num)
    (by rw [h5]; exact hbound)

theorem log_lt_half : Real.log ((3 : ℝ) / 2) < 1 / 2 := by
  rw [Real.log_lt_iff_lt_exp (by norm_num : (0 : ℝ) < 3 / 2)]
  have h2 : Real.exp ((1 : ℝ) / 2) ^ (2 : ℕ) = Real.exp 1 := by
    rw [← Real.exp_nat_mul]
    norm_num
  have hbound : ((3 : ℝ) / 2) ^ (2 : ℕ) < Real.exp 1 := by
    have h1 := Real.exp_one_gt_d9
    nlinarith
  exact lt_of_pow_lt_pow_left₀ 2 (Real.exp_pos _).le
    (by rw [h2]; exact hbound)

/-- Evaluation of the scoring loop on the spec scenario: unigrams x 10 and
y 5 (total 15), one bigram entry y to x with count 5; the only candidate has
pmi log((5 divided by 5) divided by (10 divided by 15)) = log(3 divided by 2)
and is emitted exactly when the threshold is at most that value. -/
theorem phrasesOf_scenario (th : ℝ) :
    phrasesOf [("x", 10), ("y", 5)] [("y", [("x", 5)])] th =
      if th ≤ Real.log ((3 : ℝ) / 2) then [("y", "x")] else [] := by
  have hpmi : pmiOf [("x", 10), ("y", 5)] (cntSubTotal [("x", 5)]) "x" 5 =
      Real.log ((3 : ℝ) / 2) := by
    unfold pmiOf cntSubTotal cntGet cntTotal
    norm_num [dictGet]
  unfold phrasesOf
  simp only [List.flatMap_cons, List.flatMap_nil, List.append_nil]
  by_cases hth : th ≤ Real.log ((3 : ℝ) / 2)
  · rw [if_pos hth, List.filter_cons_of_pos]
    · simp
    · dsimp only
      rw [hpmi]
      exact decide_eq_true hth
  · rw [if_neg hth, List.filter_cons_of_neg]
    · simp
    · dsimp only
      rw [hpmi]
      simpa using decide_eq_false hth

/-- General membership law of the scoring loop: a phrase (y, x) is emitted
for a pair of finished tables exactly when the bigram table holds a context
binding for y whose child table binds x to some count whose pmi against the
unigram table reaches the threshold. -/
theorem mem_phrasesOf [DecidableEq α] (u : List (α × ℕ))
    (b : List (α × List (α × ℕ))) (th : ℝ) (y x : α) :
    (y, x) ∈ phrasesOf u b th ↔
      ∃ sub, (y, sub) ∈ b ∧ ∃ c, (x, c) ∈ sub ∧
        th ≤ Real.log (((c : ℝ) / (cntSubTotal sub : ℝ)) /
          ((cntGet u x : ℝ) / (cntTotal u : ℝ))) := by
  unfold phrasesOf
  rw [List.mem_flatMap]
  constructor
  · rintro ⟨ys, hys, hmem⟩
    rw [List.mem_map] at hmem
    obtain ⟨xc, hxc, heq⟩ := hmem
    rw [List.mem_filter] at hxc
    obtain ⟨hxcsub, hcond⟩ := hxc
    have h1 : ys.1 = y := congrArg Prod.fst heq
    have h2 : xc.1 = x := congrArg Prod.snd heq
    refine ⟨ys.2, ?_, xc.2, ?_, ?_⟩
    · rw [← h1]
      simpa using hys
    · rw [← h2]
      simpa using hxcsub
    · rw [← h2]
      exact of_decide_eq_true hcond
  · rintro ⟨sub, hsub, c, hc, hcond⟩
    refine ⟨(y, sub), hsub, ?_⟩
    rw [List.mem_map]
    refine ⟨(x, c), ?_, rfl⟩
    rw [List.mem_filter]
    exact ⟨hc, decide_eq_true hcond⟩

end ScorerLemmas

section Claims

open BigramCounter

/-- C1: the claimed Lossy Counting guarantee fails on this code. The code
advances current_bucket_id before weeding and evicts entries with
count <= current - created, one bucket more eagerly than standard lossy
counting. Failing input: delta = 1/2 (window 2) and the stream consisting of
the pair (a, b) four times. Its true frequency is 4, which exceeds
delta * N = 2, yet after processing the table holds no entry for (a, b):
the entry is evicted at every bucket boundary. -/
theorem claim_C1 :
    occCount ("a", "b") (List.replicate 4 ("a", "b")) = 4 ∧
    ((1 : ℚ) / 2) * 4 < 4 ∧
    (runPairs (init ((1 : ℚ) / 2) ([] : List String))
        (List.replicate 4 ("a", "b"))).lookupBigram "a" "b" = none := by
  refine ⟨by decide, by norm_num, ?_⟩
  rw [runPairs_eq_runW 2 _ _ ((width_init _ _).trans pyInt_half)]
  decide

/-- C2: the spec scenario fails on this code. With delta = 1/2 (window 2),
no stopwords and the stream (a,b), (a,b), (c,d), (a,b), the entry (a, b) is
required by the claim to be present with count at least 2, but the code
leaves the table with no entry for (a, b): at n = 2 the entry (count 2,
created 0) is evicted because 2 <= 2 - 0, and at n = 4 the re-created entry
(count 1, created 1) is evicted because 1 <= 3 - 1. -/
theorem claim_C2 :
    occCount ("a", "b") [("a", "b"), ("a", "b"), ("c", "d"), ("a", "b")] = 3 ∧
    (runPairs (init ((1 : ℚ) / 2) ([] : List String))
        [("a", "b"), ("a", "b"), ("c", "d"), ("a", "b")]).lookupBigram
        "a" "b" = none := by
  refine ⟨by decide, ?_⟩
  rw [runPairs_eq_runW 2 _ _ ((width_init _ _).trans pyInt_half)]
  decide

/-- C3: when the processed-pair count reaches a multiple of the modulus,
add advances current_bucket_id by one and then runs weed-out on the
incremented state; weed-out deletes exactly the entries whose count is at
most current_bucket_id minus their creation bucket, keeps every other entry,
and no weed-out happens away from a boundary. -/
theorem claim_C3 [DecidableEq α] (c : BigramCounter α) (t1 t2 : α)
    (hnd : c.InnerNodup) :
    ((add_record c t1 t2).is_boundary_of_bucket = true →
      add c t1 t2 =
        weed_out_bigrams
          { add_record c t1 t2 with
            current_bucket_id := (add_record c t1 t2).current_bucket_id + 1 }) ∧
    ((add_record c t1 t2).is_boundary_of_bucket = false →
      add c t1 t2 = add_record c t1 t2) ∧
    (∀ u1 u2 : α, ∀ cnt : ℕ,
      (weed_out_bigrams
          { add_record c t1 t2 with
            current_bucket_id :=
              (add_record c t1 t2).current_bucket_id + 1 }).lookupBigram u1 u2 =
          some cnt ↔
        ({ add_record c t1 t2 with
            current_bucket_id :=
              (add_record c t1 t2).current_bucket_id + 1 } :
            BigramCounter α).lookupBigram u1 u2 = some cnt ∧
          ¬ ((cnt : ℤ) ≤ (add_record c t1 t2).current_bucket_id + 1 -
              bidOf
                { add_record c t1 t2 with
                  current_bucket_id :=
                    (add_record c t1 t2).current_bucket_id + 1 } u1 u2)) := by
  refine ⟨?_, ?_, ?_⟩
  · intro h
    unfold add
    rw [if_pos h]
    rfl
  · intro h
    unfold add
    rw [if_neg (by simp [h])]
  · intro u1 u2 cnt
    exact lookupBigram_weed
      { add_record c t1 t2 with
        current_bucket_id := (add_record c t1 t2).current_bucket_id + 1 }
      (fun p hp => add_record_innerNodup c t1 t2 hnd p hp) u1 u2 cnt

/-- Witness for C3 at a concrete state with one live entry. -/
theorem claim_C3_witness :
    sampleState.InnerNodup ∧
    (((add_record sampleState "a" "b").is_boundary_of_bucket = true →
        add sampleState "a" "b" =
          weed_out_bigrams
            { add_record sampleState "a" "b" with
              current_bucket_id :=
                (add_record sampleState "a" "b").current_bucket_id + 1 }) ∧
      ((add_record sampleState "a" "b").is_boundary_of_bucket = false →
        add sampleState "a" "b" = add_record sampleState "a" "b") ∧
      (∀ u1 u2 : String, ∀ cnt : ℕ,
        (weed_out_bigrams
            { add_record sampleState "a" "b" with
              current_bucket_id :=
                (add_record sampleState "a" "b").current_bucket_id + 1
              }).lookupBigram u1 u2 = some cnt ↔
          ({ add_record sampleState "a" "b" with
              current_bucket_id :=
                (add_record sampleState "a" "b").current_bucket_id + 1 } :
              BigramCounter String).lookupBigram u1 u2 = some cnt ∧
            ¬ ((cnt : ℤ) ≤
                (add_record sampleState "a" "b").current_bucket_id + 1 -
                  bidOf
                    { add_record sampleState "a" "b" with
                      current_bucket_id :=
                        (add_record sampleState "a" "b").current_bucket_id + 1 }
                    u1 u2))) :=
  ⟨by decide, claim_C3 sampleState "a" "b" (by decide)⟩

/-- C4: for a non-stopword pair, the count-update stage of add increments
the count of an existing entry by exactly one and does not touch the
creation-bucket table; for a new pair it creates an entry with count 1 and
creation bucket current_bucket_id - 1. -/
theorem claim_C4 [DecidableEq α] (c : BigramCounter α) (t1 t2 : α)
    (h1 : t1 ∉ c.stopwords) (h2 : t2 ∉ c.stopwords) :
    (∀ cnt : ℕ, c.lookupBigram t1 t2 = some cnt →
      (add_record c t1 t2).lookupBigram t1 t2 = some (cnt + 1) ∧
        (add_record c t1 t2).bucket_ids = c.bucket_ids) ∧
    (c.lookupBigram t1 t2 = none →
      (add_record c t1 t2).lookupBigram t1 t2 = some 1 ∧
        (add_record c t1 t2).lookupBucket t1 t2 =
          some (c.current_bucket_id - 1)) := by
  constructor
  · intro cnt hb
    have hs := lookup_some_getD hb
    rw [add_record_found c t1 t2 h1 h2 cnt hs]
    refine ⟨?_, rfl⟩
    unfold lookupBigram
    dsimp only
    rw [dictGet_set_self]
    simp only [Option.some_bind]
    exact dictGet_set_self _ _ _
  · intro hb
    have hs := lookup_none_getD hb
    rw [add_record_new c t1 t2 h1 h2 hs]
    constructor
    · unfold lookupBigram
      dsimp only
      rw [dictGet_set_self]
      simp only [Option.some_bind]
      exact dictGet_set_self _ _ _
    · unfold lookupBucket
      dsimp only
      rw [dictGet_set_self]
      simp only [Option.some_bind]
      exact dictGet_set_self _ _ _

/-- Witness for C4 at a concrete state with an existing (a, b) entry. -/
theorem claim_C4_witness :
    ("a" ∉ sampleState.stopwords ∧ "b" ∉ sampleState.stopwords) ∧
    ((∀ cnt : ℕ, sampleState.lookupBigram "a" "b" = some cnt →
      (add_record sampleState "a" "b").lookupBigram "a" "b" = some (cnt + 1) ∧
        (add_record sampleState "a" "b").bucket_ids = sampleState.bucket_ids) ∧
    (sampleState.lookupBigram "a" "b" = none →
      (add_record sampleState "a" "b").lookupBigram "a" "b" = some 1 ∧
        (add_record sampleState "a" "b").lookupBucket "a" "b" =
          some (sampleState.current_bucket_id - 1))) :=
  ⟨⟨by decide, by decide⟩,
    claim_C4 sampleState "a" "b" (by decide) (by decide)⟩

/-- C5 counterexample: the claim computes the window as the ceiling of
1 / delta, but the code uses int(1 / delta), which truncates. For
delta = 2/5 the ceiling is 3, so after 2 * 3 = 6 pairs the claim predicts
current_bucket_id = 1 + 2 = 3; the code, with modulus int(5/2) = 2, has
advanced three times and reports 4. -/
theorem claim_C5_cex :
    ⌈(1 : ℚ) / ((2 : ℚ) / 5)⌉ = 3 ∧
    (runPairs (init ((2 : ℚ) / 5) ([] : List String))
        (List.replicate (2 * 3) ("a", "b"))).current_bucket_id ≠ 1 + 2 := by
  constructor
  · rw [Int.ceil_eq_iff]
    constructor <;> norm_num
  · rw [runPairs_eq_runW 2 _ _ ((width_init _ _).trans pyInt_two_fifths)]
    decide

/-- C5 (amended): with the window w = int(1 / delta) actually computed by
the code, for every delta in (0, 1) and every k, after processing exactly
k * w pairs the current bucket equals its initial value 1 plus k. -/
theorem claim_C5 [DecidableEq α] (δ : ℚ) (h0 : 0 < δ) (h1 : δ < 1)
    (sw : List α) (w k : ℕ) (hw : (w : ℤ) = pyInt (1 / δ))
    (ps : List (α × α)) (hlen : ps.length = k * w) :
    (runPairs (init δ sw) ps).current_bucket_id = 1 + (k : ℤ) := by
  have hone : (1 : ℚ) < 1 / δ := by
    rw [lt_div_iff₀ h0]
    linarith
  have hfl : (1 : ℤ) ≤ pyInt (1 / δ) := by
    rw [pyInt, if_pos (by positivity)]
    exact Int.le_floor.mpr (by exact_mod_cast hone.le)
  have hpos : 0 < w := by
    have : (1 : ℤ) ≤ (w : ℤ) := hw ▸ hfl
    exact_mod_cast this
  have hrun := runPairs_current w ps (init δ sw)
    (by rw [width_init, hw]) (by simp [init])
  rw [hrun]
  have hn : (init δ sw : BigramCounter α).n = 0 := rfl
  rw [hn, hlen, Nat.zero_add, Nat.mul_div_left k hpos]

/-- Witness for C5 at delta = 1/2 (window 2), k = 2: after four pairs the
bucket is 3. -/
theorem claim_C5_witness :
    (0 < (1 : ℚ) / 2 ∧ (1 : ℚ) / 2 < 1 ∧
      ((2 : ℕ) : ℤ) = pyInt (1 / ((1 : ℚ) / 2)) ∧
      (List.replicate 4 (("a", "b") : String × String)).length = 2 * 2) ∧
    (runPairs (init ((1 : ℚ) / 2) ([] : List String))
        (List.replicate 4 ("a", "b"))).current_bucket_id = 1 + ((2 : ℕ) : ℤ) :=
  ⟨⟨by norm_num, by norm_num, by rw [pyInt_half]; norm_num, by decide⟩,
    claim_C5 ((1 : ℚ) / 2) (by norm_num) (by norm_num) [] 2 2
      (by rw [pyInt_half]; norm_num) (List.replicate 4 ("a", "b")) (by decide)⟩

/-- C6: a pair with a stopword member never gets an entry in the bigram
table over any run, while every call to add still advances the processed
count n by one, so stopword pairs keep consuming bucket-boundary budget. -/
theorem claim_C6 [DecidableEq α] (sw : List α) (t1 t2 : α)
    (h : t1 ∈ sw ∨ t2 ∈ sw) :
    (∀ (δ : ℚ) (ps : List (α × α)),
      (runPairs (init δ sw) ps).lookupBigram t1 t2 = none) ∧
    (∀ (c : BigramCounter α) (u1 u2 : α), (add c u1 u2).n = c.n + 1) := by
  constructor
  · intro δ ps
    exact runPairs_stopword_none sw t1 t2 h ps (init δ sw) rfl rfl
  · intro c u1 u2
    exact add_n c u1 u2

/-- Witness for C6 with stopword list containing the first token. -/
theorem claim_C6_witness :
    ("the" ∈ ["the"] ∨ "cat" ∈ ["the"]) ∧
    ((∀ (δ : ℚ) (ps : List (String × String)),
      (runPairs (init δ ["the"]) ps).lookupBigram "the" "cat" = none) ∧
    (∀ (c : BigramCounter String) (u1 u2 : String),
      (add c u1 u2).n = c.n + 1)) :=
  ⟨Or.inl (by decide), claim_C6 ["the"] "the" "cat" (Or.inl (by decide))⟩

/-- C7: for every finished unigram table and every finished bigram table,
the scorer of insert_articles_to_lexicon computes for each entry (y, x) the
value pmi = log((count_x_given_y / count_all_given_y) / (count(x) / N_uni))
and accepts the phrase (y, x) exactly when pmi reaches the threshold. In
particular, on the spec scenario (unigrams x 10 and y 5 with total 15, one
bigram entry y to x with count 5 out of 5), the pmi is
log((5 / 5) / (10 / 15)) = log(3 / 2), so the phrase (y, x) is emitted at
threshold 2/5 = 0.4 and not emitted at threshold 1/2 = 0.5. -/
theorem claim_C7 (α : Type) [DecidableEq α] :
    (∀ (u : List (α × ℕ)) (b : List (α × List (α × ℕ))) (th : ℝ)
        (y x : α),
      ((y, x) ∈ phrasesOf u b th ↔
        ∃ sub, (y, sub) ∈ b ∧ ∃ c, (x, c) ∈ sub ∧
          th ≤ Real.log (((c : ℝ) / (cntSubTotal sub : ℝ)) /
            ((cntGet u x : ℝ) / (cntTotal u : ℝ))))) ∧
    (("y", "x") ∈ phrasesOf [("x", 10), ("y", 5)] [("y", [("x", 5)])]
      ((2 : ℝ) / 5)) ∧
    (phrasesOf [("x", 10), ("y", 5)] [("y", [("x", 5)])] ((1 : ℝ) / 2) = []) ∧
    (∀ th : ℝ,
      (("y", "x") ∈ phrasesOf [("x", 10), ("y", 5)] [("y", [("x", 5)])] th ↔
        th ≤ Real.log (((5 : ℝ) / 5) / ((10 : ℝ) / 15)))) := by
  have harg : ((5 : ℝ) / 5) / ((10 : ℝ) / 15) = 3 / 2 := by norm_num
  have hmem : ∀ th : ℝ,
      (("y", "x") ∈ phrasesOf [("x", 10), ("y", 5)] [("y", [("x", 5)])] th ↔
        th ≤ Real.log ((3 : ℝ) / 2)) := by
    intro th
    rw [phrasesOf_scenario]
    by_cases hth : th ≤ Real.log ((3 : ℝ) / 2)
    · simp [hth]
    · simp [hth]
  refine ⟨mem_phrasesOf, (hmem _).mpr two_fifths_lt_log.le, ?_, ?_⟩
  · rw [phrasesOf_scenario, if_neg (not_le.mpr log_lt_half)]
  · intro th
    rw [harg]
    exact hmem th

/-- C8 counterexample: delta = 2 lies outside (0, 1), yet construction
succeeds and stores delta unchanged with a fresh state; the failure happens
only during streaming, where the first add raises ZeroDivisionError because
int(1 / 2) = 0 is used as a modulus. -/
theorem claim_C8_cex :
    (init (2 : ℚ) ([] : List String)).delta = 2 ∧
    (init (2 : ℚ) ([] : List String)).n = 0 ∧
    (init (2 : ℚ) ([] : List String)).bigrams = [] ∧
    addChecked (init (2 : ℚ) ([] : List String)) "a" "b" =
      Except.error () := by
  refine ⟨rfl, rfl, rfl, ?_⟩
  unfold addChecked
  rw [if_pos]
  show width (init (2 : ℚ) ([] : List String)) = 0
  show pyInt (1 / (2 : ℚ)) = 0
  exact pyInt_inv_two

/-- C8 (amended): the constructor performs no validation at all; for every
delta in (0, 1) the modulus int(1 / delta) is at least 1, so no error path
exists during streaming for any counter carrying such a delta. -/
theorem claim_C8 [DecidableEq α] (δ : ℚ) (h0 : 0 < δ) (h1 : δ < 1)
    (sw : List α) (c : BigramCounter α) (hc : c.delta = δ) (t1 t2 : α) :
    (init δ sw : BigramCounter α).delta = δ ∧
    (init δ sw : BigramCounter α).n = 0 ∧
    addChecked c t1 t2 = Except.ok (add c t1 t2) := by
  refine ⟨rfl, rfl, ?_⟩
  unfold addChecked
  rw [if_neg]
  intro hzero
  have hone : (1 : ℚ) < 1 / δ := by
    rw [lt_div_iff₀ h0]
    linarith
  have hge : (1 : ℤ) ≤ c.width := by
    unfold width
    rw [hc, pyInt, if_pos (by positivity)]
    exact Int.le_floor.mpr (by exact_mod_cast hone.le)
  omega

/-- Witness for C8 at delta = 1/2. -/
theorem claim_C8_witness :
    (0 < (1 : ℚ) / 2 ∧ (1 : ℚ) / 2 < 1 ∧
      (init ((1 : ℚ) / 2) ([] : List String)).delta = (1 : ℚ) / 2) ∧
    ((init ((1 : ℚ) / 2) ([] : List String)).delta = (1 : ℚ) / 2 ∧
      (init ((1 : ℚ) / 2) ([] : List String)).n = 0 ∧
      addChecked (init ((1 : ℚ) / 2) ([] : List String)) "a" "b" =
        Except.ok (add (init ((1 : ℚ) / 2) ([] : List String)) "a" "b")) :=
  ⟨⟨by norm_num, by norm_num, rfl⟩,
    claim_C8 ((1 : ℚ) / 2) (by norm_num) (by norm_num) []
      (init ((1 : ℚ) / 2) ([] : List String)) rfl "a" "b"⟩

/-- C9: the unigram table built by accumulating one Counter per article maps
every token to its exact number of occurrences in the concatenated stream,
and the total of all counts equals the stream length. -/
theorem claim_C9 [DecidableEq α] (articles : List (List α)) (t : α) :
    cntGet (unigramsOf articles) t = occCount t articles.flatten ∧
    cntTotal (unigramsOf articles) = articles.flatten.length := by
  constructor
  · unfold unigramsOf
    rw [unigramsOf_get_aux]
    have h0 : cntGet ([] : List (α × ℕ)) t = 0 := rfl
    rw [h0, Nat.zero_add]
  · unfold unigramsOf
    rw [unigramsOf_total_aux]
    have h0 : cntTotal ([] : List (α × ℕ)) = 0 := rfl
    rw [h0, Nat.zero_add]

/-- C10: weed-out only removes inner entries: it never deletes an outer
context key (so a context may be left with an empty child table), never
changes n or the current bucket, keeps the exact count of every surviving
entry together with its stored creation bucket, adds nothing, and the
scorer emits no phrase for a context whose child table is empty. -/
theorem claim_C10 [DecidableEq α] (c : BigramCounter α) (hnd : c.InnerNodup) :
    ((weed_out_bigrams c).bigrams.map Prod.fst = c.bigrams.map Prod.fst) ∧
    ((weed_out_bigrams c).n = c.n ∧
      (weed_out_bigrams c).current_bucket_id = c.current_bucket_id) ∧
    (∀ t1 t2 : α, ∀ cnt : ℕ,
      (weed_out_bigrams c).lookupBigram t1 t2 = some cnt ↔
        c.lookupBigram t1 t2 = some cnt ∧
          ¬ ((cnt : ℤ) ≤ c.current_bucket_id - bidOf c t1 t2)) ∧
    (∀ t1 t2 : α, ∀ cnt : ℕ,
      (weed_out_bigrams c).lookupBigram t1 t2 = some cnt →
        (weed_out_bigrams c).lookupBucket t1 t2 = c.lookupBucket t1 t2) ∧
    (∀ (u : List (α × ℕ)) (th : ℝ) (b1 b2 : List (α × List (α × ℕ)))
        (y : α),
      phrasesOf u (b1 ++ (y, []) :: b2) th = phrasesOf u (b1 ++ b2) th) := by
  refine ⟨?_, ⟨rfl, rfl⟩, ?_, ?_, ?_⟩
  · show (c.bigrams.map fun p =>
        (p.1, p.2.filter fun q => ! weedCond c p.1 q.1 q.2)).map Prod.fst =
      c.bigrams.map Prod.fst
    rw [List.map_map]
    rfl
  · intro t1 t2 cnt
    exact lookupBigram_weed c hnd t1 t2 cnt
  · intro t1 t2 cnt h
    have h2 := (lookupBigram_weed c hnd t1 t2 cnt).mp h
    exact lookupBucket_weed c t1 t2 (queueMem_eq_false h2.1 h2.2)
  · intro u th b1 b2 y
    unfold phrasesOf
    rw [List.flatMap_append, List.flatMap_cons, List.flatMap_append]
    simp

/-- Witness for C10 at a concrete state with one live entry. -/
theorem claim_C10_witness :
    sampleState.InnerNodup ∧
    (((weed_out_bigrams sampleState).bigrams.map Prod.fst =
        sampleState.bigrams.map Prod.fst) ∧
    ((weed_out_bigrams sampleState).n = sampleState.n ∧
      (weed_out_bigrams sampleState).current_bucket_id =
        sampleState.current_bucket_id) ∧
    (∀ t1 t2 : String, ∀ cnt : ℕ,
      (weed_out_bigrams sampleState).lookupBigram t1 t2 = some cnt ↔
        sampleState.lookupBigram t1 t2 = some cnt ∧
          ¬ ((cnt : ℤ) ≤ sampleState.current_bucket_id -
              bidOf sampleState t1 t2)) ∧
    (∀ t1 t2 : String, ∀ cnt : ℕ,
      (weed_out_bigrams sampleState).lookupBigram t1 t2 = some cnt →
        (weed_out_bigrams sampleState).lookupBucket t1 t2 =
          sampleState.lookupBucket t1 t2) ∧
    (∀ (u : List (String × ℕ)) (th : ℝ)
        (b1 b2 : List (String × List (String × ℕ))) (y : String),
      phrasesOf u (b1 ++ (y, []) :: b2) th = phrasesOf u (b1 ++ b2) th)) :=
  ⟨by decide, claim_C10 sampleState (by decide)⟩

end Claims



end Yapl
